import Mathlib

/-!
Verification development for the `uvdepsync` dependency reconciliation tool
(`src/uvdepsync/core.py`).  The Python core is shallowly embedded below:
Python sets are modelled as duplicate-free insertion-ordered lists built with
`insertSet`, Python dicts as association lists (`lookupAssoc`, first match
wins, `dict_insert` overwrites, `setdefault_assoc` keeps the existing entry),
and the ASCII fragment of `str.lower` as a finite letter table.  Parsed
Python source files are represented by the list of `import` / `from-import`
nodes that `ast.walk` yields, `None` standing for a file whose parse raised
`SyntaxError`.  The manifest side effect of `sync_project_dependencies` is
made observable as a trace of filesystem effects.
-/

/-- The 26 ASCII uppercase letters paired with their lowercase forms; the
ASCII fragment of Python's `str.lower`. -/
def ascii_lower_pairs : List (Char × Char) :=
  [('A', 'a'), ('B', 'b'), ('C', 'c'), ('D', 'd'), ('E', 'e'), ('F', 'f'),
   ('G', 'g'), ('H', 'h'), ('I', 'i'), ('J', 'j'), ('K', 'k'), ('L', 'l'),
   ('M', 'm'), ('N', 'n'), ('O', 'o'), ('P', 'p'), ('Q', 'q'), ('R', 'r'),
   ('S', 's'), ('T', 't'), ('U', 'u'), ('V', 'v'), ('W', 'w'), ('X', 'x'),
   ('Y', 'y'), ('Z', 'z')]

/-- Lowercase a single character (ASCII model of `str.lower`). -/
def lower_char (c : Char) : Char :=
  match ascii_lower_pairs.find? (fun p => p.1 == c) with
  | some p => p.2
  | none => c

/-- `s.lower()` on strings (ASCII model). -/
def py_lower (s : String) : String :=
  String.mk (s.data.map lower_char)

/-- Characters matched by the character class in `re.sub(r"[-_.]+", "-", name)`. -/
def is_sep_char (c : Char) : Bool :=
  c == '-' || c == '_' || c == '.'

/-- One pass of `re.sub(r"[-_.]+", "-", _)`: every maximal run of `-`, `_`,
`.` is replaced by a single `-`.  The flag records whether the previous
character belonged to such a run. -/
def collapse_seps : List Char → Bool → List Char
  | [], _ => []
  | c :: rest, prevSep =>
    if is_sep_char c then
      if prevSep then collapse_seps rest true
      else '-' :: collapse_seps rest true
    else c :: collapse_seps rest false

/-- `normalize_dist_name` from core.py:
`re.sub(r"[-_.]+", "-", name).lower()`. -/
def normalize_dist_name (name : String) : String :=
  String.mk ((collapse_seps name.data false).map lower_char)

/-- ASCII whitespace matched by the regex class `\s` and stripped by `str.strip`. -/
def is_py_space (c : Char) : Bool :=
  c == ' ' || c == '\t' || c == '\n' || c == '\x0d' || c == '\x0b' || c == '\x0c'

/-- `[A-Za-z0-9]`, the first character of `REQUIREMENT_NAME_PATTERN`. -/
def is_req_name_start (c : Char) : Bool :=
  ('A' ≤ c && c ≤ 'Z') || ('a' ≤ c && c ≤ 'z') || ('0' ≤ c && c ≤ '9')

/-- `[A-Za-z0-9._-]`, the continuation class of `REQUIREMENT_NAME_PATTERN`. -/
def is_req_name_char (c : Char) : Bool :=
  is_req_name_start c || c == '.' || c == '_' || c == '-'

/-- `str.strip()` on a character list (ASCII whitespace). -/
def py_strip_chars (l : List Char) : List Char :=
  ((l.dropWhile is_py_space).reverse.dropWhile is_py_space).reverse

/-- `parse_requirement_name` from core.py: match
`^\s*([A-Za-z0-9][A-Za-z0-9._-]*)` and return the group, falling back to
`requirement.strip()` when the pattern does not match. -/
def parse_requirement_name (requirement : String) : String :=
  match requirement.data.dropWhile is_py_space with
  | [] => String.mk (py_strip_chars requirement.data)
  | c :: cs =>
    if is_req_name_start c then String.mk (c :: cs.takeWhile is_req_name_char)
    else String.mk (py_strip_chars requirement.data)

/-- `set.add`: append the element unless already present (Python sets as
insertion-ordered duplicate-free lists). -/
def insertSet (l : List String) (x : String) : List String :=
  if x ∈ l then l else l ++ [x]

/-- `set.update`: add every element of the second set to the first. -/
def unionSet (a b : List String) : List String :=
  b.foldl insertSet a

/-- `dict.get`: first binding of the key in an association list. -/
def lookupAssoc {β : Type} : List (String × β) → String → Option β
  | [], _ => none
  | p :: rest, k => if p.1 = k then some p.2 else lookupAssoc rest k

/-- `dict[k] = v`: overwrite the binding if the key exists, append otherwise. -/
def dict_insert {β : Type} (m : List (String × β)) (k : String) (v : β) :
    List (String × β) :=
  if (lookupAssoc m k).isSome then
    m.map (fun p => if p.1 = k then (k, v) else p)
  else m ++ [(k, v)]

/-- `dict.setdefault k v`: keep the existing binding, append `(k, v)` only
when the key is absent. -/
def setdefault_assoc (m : List (String × String)) (k v : String) :
    List (String × String) :=
  if (lookupAssoc m k).isSome then m else m ++ [(k, v)]

/-- Code-point lexicographic comparison of character lists: the order Python
uses to compare strings. -/
def py_chars_le : List Char → List Char → Bool
  | [], _ => true
  | _ :: _, [] => false
  | a :: as, b :: bs =>
    if a < b then true
    else if a = b then py_chars_le as bs
    else false

/-- `a <= b` on Python strings (code-point lexicographic order). -/
def py_str_le (a b : String) : Bool :=
  py_chars_le a.data b.data

/-- `sorted(set(...))` on strings: deduplicate (first occurrence kept) and
sort ascending by the code-point lexicographic order Python uses. -/
def py_sorted_set (l : List String) : List String :=
  List.insertionSort (fun a b => py_str_le a b = true) (l.foldl insertSet [])

/-- An import statement node as found by `ast.walk`: `ast.Import` carries the
dotted names of its aliases, `ast.ImportFrom` carries the relative-import
level and the optional module path. -/
inductive PyImportNode
  | imp (names : List String)
  | impFrom (level : Nat) (module : Option String)
deriving DecidableEq

/-- `name.split(".", 1)[0]`: the text before the first dot. -/
def first_dot_segment (s : String) : String :=
  String.mk (s.data.takeWhile (fun c => c != '.'))

/-- `extract_imports_from_source` from core.py.  The argument is the parsed
source: `none` when `ast.parse` raised `SyntaxError` (the `except` branch
returns the empty set), otherwise the `Import` / `ImportFrom` nodes found by
`ast.walk`.  A plain import contributes the lowercased first dotted segment
of each alias; a from-import contributes the lowercased first segment of its
module unless the import is relative (`level != 0`) or the module is falsy. -/
def extract_imports_from_source (parsed : Option (List PyImportNode)) :
    List String :=
  match parsed with
  | none => []
  | some tree =>
    tree.foldl
      (fun imports node =>
        match node with
        | PyImportNode.imp names =>
          names.foldl
            (fun acc nm => insertSet acc (py_lower (first_dot_segment nm)))
            imports
        | PyImportNode.impFrom level module =>
          if level ≠ 0 ∨ module.getD "" = "" then imports
          else insertSet imports (py_lower (first_dot_segment (module.getD ""))))
      []

/-- `collect_imports` from core.py: union the per-file import sets and count
the scanned files (each file appears in the count whether or not it parsed). -/
def collect_imports (files : List (Option (List PyImportNode))) :
    List String × Nat :=
  (files.foldl (fun imports f => unionSet imports (extract_imports_from_source f)) [],
   files.length)

/-- `build_distribution_map` from core.py: for each module of the raw
`packages_distributions()` mapping, drop falsy distribution names, normalize,
deduplicate and sort the candidates, and record them under the lowercased
module name when any survive. -/
def build_distribution_map (raw_map : List (String × List String)) :
    List (String × List String) :=
  raw_map.foldl
    (fun mapping entry =>
      let normalized :=
        py_sorted_set ((entry.2.filter (fun dep => dep ≠ "")).map normalize_dist_name)
      if normalized ≠ [] then dict_insert mapping (py_lower entry.1) normalized
      else mapping)
    []

/-- The index-or-identity tail of the resolution in `infer_dependencies`:
use the first candidate of the distribution map entry when the entry exists
and is nonempty, otherwise fall back to the module name itself, normalizing
either way. -/
def resolve_from_index (distribution_map : List (String × List String))
    (module : String) : String :=
  match lookupAssoc distribution_map module with
  | some (c :: _) => normalize_dist_name c
  | _ => normalize_dist_name module

/-- Resolution of one import name in `infer_dependencies`: a truthy explicit
override wins (`if mapped_dep:` is false for `None` and for the empty
string), otherwise the distribution index, otherwise identity. -/
def resolve_module (distribution_map : List (String × List String))
    (explicit_map : List (String × String)) (module : String) : String :=
  match lookupAssoc explicit_map module with
  | some mapped_dep =>
    if mapped_dep ≠ "" then normalize_dist_name mapped_dep
    else resolve_from_index distribution_map module
  | none => resolve_from_index distribution_map module

/-- `infer_dependencies` from core.py: skip stdlib and local modules, resolve
every other import through `resolve_module`, and collect the results as a
set. -/
def infer_dependencies (imports : List String)
    (distribution_map : List (String × List String))
    (local_modules stdlib_modules : List String)
    (explicit_map : List (String × String)) : List String :=
  imports.foldl
    (fun inferred module =>
      if module ∈ stdlib_modules ∨ module ∈ local_modules then inferred
      else insertSet inferred (resolve_module distribution_map explicit_map module))
    []

/-- An entry of the manifest's dependency array: a string literal, or a
value of any other TOML type (which core.py filters out). -/
inductive TomlItem
  | str (s : String)
  | other
deriving DecidableEq

/-- The string entries of a dependency array, in order. -/
def toml_strings (items : List TomlItem) : List String :=
  items.filterMap (fun item =>
    match item with
    | TomlItem.str s => some s
    | TomlItem.other => none)

/-- `load_declared_dependencies` from core.py: keep the string entries of the
`project.dependencies` array as the raw list, and reduce each to its
normalized requirement name for the comparable set. -/
def load_declared_dependencies (deps : List TomlItem) :
    List String × List String :=
  let raw_dependencies := toml_strings deps
  (raw_dependencies.foldl
     (fun acc dep => insertSet acc (normalize_dist_name (parse_requirement_name dep)))
     [],
   raw_dependencies)

/-- `compute_synced_dependencies` from core.py: build a first-wins lookup
from the normalized requirement name of each current declaration to its
literal string, then enumerate the inferred names in sorted order, emitting
the remembered literal when present and the inferred name itself otherwise. -/
def compute_synced_dependencies (current_dependencies : List String)
    (inferred_dependencies : List String) : List String :=
  let current_map :=
    current_dependencies.foldl
      (fun m dep =>
        setdefault_assoc m (normalize_dist_name (parse_requirement_name dep)) dep)
      []
  (List.insertionSort (fun a b => py_str_le a b = true) inferred_dependencies).map
    (fun dep_name => (lookupAssoc current_map dep_name).getD dep_name)

/-- Result record of `sync_project_dependencies`. -/
structure SyncResult where
  changed : Bool
  wrote : Bool
  before : List String
  after : List String
deriving DecidableEq

/-- Filesystem effects the sync step could perform on the manifest.
`write_in_place` is `pyproject_path.write_text(...)`: the manifest is opened
for writing (truncated) and the new text is written directly to it.  The
other two constructors are the write-to-temporary-then-rename protocol; the
embedded code never emits them. -/
inductive FsEffect
  | write_in_place (newDeps : List String)
  | write_temp_file (newDeps : List String)
  | rename_temp_over_manifest
deriving DecidableEq

/-- `sync_project_dependencies` from core.py, with its manifest effect made
explicit.  The manifest's dependency array is the input (non-string entries
are filtered out as in the source); the returned trace lists the filesystem
operations performed: a single direct in-place `write_text` when the list
changed and the write flag is set, nothing otherwise. -/
def sync_project_dependencies (manifest_dependencies : List TomlItem)
    (inferred_dependencies : List String) (write : Bool) :
    SyncResult × List FsEffect :=
  let current_dependencies := toml_strings manifest_dependencies
  let synced_dependencies :=
    compute_synced_dependencies current_dependencies inferred_dependencies
  let changed : Bool := current_dependencies ≠ synced_dependencies
  if changed && write then
    ({ changed := changed, wrote := true, before := current_dependencies,
       after := synced_dependencies },
     [FsEffect.write_in_place synced_dependencies])
  else
    ({ changed := changed, wrote := false, before := current_dependencies,
       after := synced_dependencies },
     [])

/-- Modelled from the spec (Sync Planner contract, §4.6): enumerate the
inferred distribution names in ascending lexicographic order; emit the
original literal of the first current declaration whose name matches,
otherwise the bare normalized name. -/
def synced_per_spec (current_dependencies : List String)
    (inferred_dependencies : List String) : List String :=
  (List.insertionSort (fun a b => py_str_le a b = true) inferred_dependencies).map
    (fun name =>
      match current_dependencies.find?
          (fun dep => normalize_dist_name (parse_requirement_name dep) == name) with
      | some dep => dep
      | none => normalize_dist_name name)

/-! ### Character-level facts about lowercasing and separator characters -/

lemma ascii_lower_pairs_no_sep :
    ∀ p ∈ ascii_lower_pairs, is_sep_char p.1 = false ∧ is_sep_char p.2 = false := by
  decide

lemma ascii_lower_pairs_snd_not_key :
    ∀ p ∈ ascii_lower_pairs,
      ascii_lower_pairs.find? (fun q => q.1 == p.2) = none := by
  decide

lemma lower_char_idem (c : Char) : lower_char (lower_char c) = lower_char c := by
  unfold lower_char
  cases h : ascii_lower_pairs.find? (fun p => p.1 == c) with
  | none => simp [h]
  | some p =>
    have hmem := List.mem_of_find?_eq_some h
    simp [ascii_lower_pairs_snd_not_key p hmem]

lemma is_sep_char_lower_char (c : Char) :
    is_sep_char (lower_char c) = is_sep_char c := by
  unfold lower_char
  cases h : ascii_lower_pairs.find? (fun p => p.1 == c) with
  | none => rfl
  | some p =>
    have hmem := List.mem_of_find?_eq_some h
    have hp := List.find?_some h
    have hc : p.1 = c := by simpa using hp
    have h1 := (ascii_lower_pairs_no_sep p hmem).1
    have h2 := (ascii_lower_pairs_no_sep p hmem).2
    rw [h2, ← hc, h1]

lemma lower_char_hyphen : lower_char '-' = '-' := by decide

lemma is_sep_char_hyphen : is_sep_char '-' = true := by decide

/-! ### Idempotence of distribution-name normalization -/

lemma collapse_seps_map_lower (l : List Char) (b : Bool) :
    collapse_seps (l.map lower_char) b = (collapse_seps l b).map lower_char := by
  induction l generalizing b with
  | nil => rfl
  | cons c rest ih =>
    by_cases h : is_sep_char c = true
    · cases b with
      | false =>
        simp [collapse_seps, is_sep_char_lower_char, h, ih, lower_char_hyphen]
      | true =>
        simp [collapse_seps, is_sep_char_lower_char, h, ih]
    · simp [collapse_seps, is_sep_char_lower_char, h, ih]

lemma collapse_seps_idem (l : List Char) (b : Bool) :
    collapse_seps (collapse_seps l b) b = collapse_seps l b := by
  induction l generalizing b with
  | nil => rfl
  | cons c rest ih =>
    by_cases h : is_sep_char c = true
    · cases b with
      | false => simp [collapse_seps, h, ih, is_sep_char_hyphen]
      | true => simp [collapse_seps, h, ih]
    · simp [collapse_seps, h, ih]

lemma normalize_dist_name_idem (s : String) :
    normalize_dist_name (normalize_dist_name s) = normalize_dist_name s := by
  unfold normalize_dist_name
  have hdata :
      (String.mk ((collapse_seps s.data false).map lower_char)).data
        = (collapse_seps s.data false).map lower_char := rfl
  rw [hdata, collapse_seps_map_lower, collapse_seps_idem]
  congr 1
  rw [List.map_map]
  exact List.map_congr_left (fun c _ => lower_char_idem c)

/-! ### Association-list and set-model lemmas -/

lemma lookupAssoc_append {β : Type} (m1 m2 : List (String × β)) (k : String) :
    lookupAssoc (m1 ++ m2) k =
      match lookupAssoc m1 k with
      | some v => some v
      | none => lookupAssoc m2 k := by
  induction m1 with
  | nil => rfl
  | cons p rest ih =>
    by_cases h : p.1 = k
    · simp [lookupAssoc, h]
    · simp [lookupAssoc, h, ih]

lemma lookupAssoc_setdefault (m : List (String × String)) (k v k' : String) :
    lookupAssoc (setdefault_assoc m k v) k' =
      match lookupAssoc m k' with
      | some w => some w
      | none => if k = k' then some v else none := by
  unfold setdefault_assoc
  by_cases h : (lookupAssoc m k).isSome
  · rw [if_pos h]
    cases hk : lookupAssoc m k' with
    | some w => simp [hk]
    | none =>
      simp only [hk]
      by_cases he : k = k'
      · subst he
        rw [hk] at h
        simp at h
      · simp [he]
  · rw [if_neg h, lookupAssoc_append]
    cases hk : lookupAssoc m k' with
    | some w => rfl
    | none => simp [lookupAssoc]

lemma lookupAssoc_foldl_setdefault (f : String → String) (deps : List String)
    (acc : List (String × String)) (k : String) :
    lookupAssoc (deps.foldl (fun m dep => setdefault_assoc m (f dep) dep) acc) k =
      match lookupAssoc acc k with
      | some v => some v
      | none => deps.find? (fun dep => f dep == k) := by
  induction deps generalizing acc with
  | nil =>
    cases h : lookupAssoc acc k with
    | some v => simp [h]
    | none => simp [h]
  | cons d rest ih =>
    simp only [List.foldl_cons]
    rw [ih, lookupAssoc_setdefault]
    cases h : lookupAssoc acc k with
    | some v => simp
    | none =>
      by_cases he : f d = k
      · have hb : (f d == k) = true := by simp [he]
        simp [List.find?, hb, he]
      · have hb : (f d == k) = false := by simp [he]
        simp [List.find?, hb, he]

lemma find?_congr_mem {α : Type} (l : List α) (p q : α → Bool)
    (h : ∀ x ∈ l, p x = q x) : l.find? p = l.find? q := by
  induction l with
  | nil => rfl
  | cons a rest ih =>
    have ha := h a (List.mem_cons_self a rest)
    cases hq : q a with
    | true => simp [List.find?, ha, hq]
    | false =>
      simp only [List.find?, ha, hq]
      exact ih (fun x hx => h x (List.mem_cons_of_mem a hx))

lemma find?_beq_self_of_mem (l : List String) (n : String) (h : n ∈ l) :
    l.find? (fun m => m == n) = some n := by
  induction l with
  | nil => cases h
  | cons a rest ih =>
    by_cases ha : a = n
    · subst ha
      simp [List.find?]
    · have hn : n ∈ rest := by
        cases List.mem_cons.mp h with
        | inl he => exact absurd he.symm ha
        | inr hr => exact hr
      have hb : (a == n) = false := by simp [ha]
      simp [List.find?, hb, ih hn]

lemma mem_insertSet (l : List String) (x y : String) :
    x ∈ insertSet l y ↔ x ∈ l ∨ x = y := by
  unfold insertSet
  by_cases h : y ∈ l
  · simp only [if_pos h]
    constructor
    · exact Or.inl
    · rintro (hx | rfl)
      · exact hx
      · exact h
  · simp [if_neg h]

lemma mem_unionSet (a b : List String) (x : String) :
    x ∈ unionSet a b ↔ x ∈ a ∨ x ∈ b := by
  induction b generalizing a with
  | nil => simp [unionSet]
  | cons y rest ih =>
    show x ∈ unionSet (insertSet a y) rest ↔ _
    rw [ih, mem_insertSet]
    simp [or_assoc]

lemma lookupAssoc_filter_ne (m : List (String × String)) (k k' : String) :
    lookupAssoc (m.filter (fun p => p.1 ≠ k)) k' =
      if k' = k then none else lookupAssoc m k' := by
  induction m with
  | nil => simp [lookupAssoc]
  | cons p rest ih =>
    by_cases hp : p.1 = k
    · have hd : (decide (p.1 ≠ k)) = false := by simp [hp]
      rw [List.filter_cons, hd, if_neg Bool.false_ne_true, ih]
      by_cases hk : k' = k
      · simp [hk]
      · have hne : p.1 ≠ k' := by rw [hp]; exact fun he => hk he.symm
        simp [hk, lookupAssoc, hne]
    · have hd : (decide (p.1 ≠ k)) = true := by simp [hp]
      rw [List.filter_cons, hd, if_pos rfl]
      by_cases he : p.1 = k'
      · have hkk : ¬ k' = k := by rw [← he]; exact fun hh => hp hh
        simp [lookupAssoc, he, hkk]
      · simp only [lookupAssoc, if_neg he, ih]

/-! ### The sync planner's lookup, in closed form -/

lemma lookupAssoc_current_map (current : List String) (n : String) :
    lookupAssoc
      (current.foldl
        (fun m dep =>
          setdefault_assoc m (normalize_dist_name (parse_requirement_name dep)) dep)
        [])
      n
      = current.find?
          (fun dep => normalize_dist_name (parse_requirement_name dep) == n) := by
  rw [lookupAssoc_foldl_setdefault
        (fun dep => normalize_dist_name (parse_requirement_name dep))]
  rfl

lemma compute_synced_eq (current inferred : List String) :
    compute_synced_dependencies current inferred =
      (List.insertionSort (fun a b => py_str_le a b = true) inferred).map
        (fun n =>
          (current.find?
            (fun dep => normalize_dist_name (parse_requirement_name dep) == n)).getD
            n) := by
  unfold compute_synced_dependencies
  apply List.map_congr_left
  intro n _
  rw [lookupAssoc_current_map]

/-! ### The Python string order is reflexive, total and transitive -/

lemma py_chars_le_refl : ∀ as : List Char, py_chars_le as as = true
  | [] => rfl
  | a :: as => by simp [py_chars_le, lt_irrefl, py_chars_le_refl as]

lemma py_chars_le_total : ∀ as bs : List Char,
    py_chars_le as bs = true ∨ py_chars_le bs as = true
  | [], _ => Or.inl rfl
  | _ :: _, [] => Or.inr rfl
  | a :: as, b :: bs => by
    rcases lt_trichotomy a b with h | h | h
    · exact Or.inl (by simp [py_chars_le, h])
    · subst h
      cases py_chars_le_total as bs with
      | inl hl => exact Or.inl (by simp [py_chars_le, lt_irrefl, hl])
      | inr hr => exact Or.inr (by simp [py_chars_le, lt_irrefl, hr])
    · exact Or.inr (by simp [py_chars_le, h])

lemma py_chars_le_trans : ∀ as bs cs : List Char,
    py_chars_le as bs = true → py_chars_le bs cs = true →
      py_chars_le as cs = true
  | [], _, _, _, _ => rfl
  | _ :: _, [], _, h1, _ => by simp [py_chars_le] at h1
  | _ :: _, _ :: _, [], _, h2 => by simp [py_chars_le] at h2
  | a :: as, b :: bs, c :: cs, h1, h2 => by
    simp only [py_chars_le] at h1 h2 ⊢
    by_cases hab : a < b
    · by_cases hbc : b < c
      · simp [lt_trans hab hbc]
      · by_cases hbec : b = c
        · subst hbec
          simp [hab]
        · simp [hbc, hbec] at h2
    · by_cases haeb : a = b
      · subst haeb
        by_cases hac : a < c
        · simp [hac]
        · by_cases haec : a = c
          · subst haec
            simp only [lt_irrefl, if_false, if_pos rfl] at h1 h2 ⊢
            exact py_chars_le_trans as bs cs h1 h2
          · simp [hac, haec] at h2
      · simp [hab, haeb] at h1

lemma py_str_le_refl (a : String) : py_str_le a a = true :=
  py_chars_le_refl a.data

lemma py_str_le_total (a b : String) :
    py_str_le a b = true ∨ py_str_le b a = true :=
  py_chars_le_total a.data b.data

lemma py_str_le_trans (a b c : String) :
    py_str_le a b = true → py_str_le b c = true → py_str_le a c = true :=
  py_chars_le_trans a.data b.data c.data

/-! ### Sortedness and membership of `sorted(set(...))` -/

lemma py_sorted_set_sorted (l : List String) :
    List.Sorted (fun a b : String => py_str_le a b = true) (py_sorted_set l) := by
  haveI : IsTotal String (fun a b : String => py_str_le a b = true) := ⟨py_str_le_total⟩
  haveI : IsTrans String (fun a b : String => py_str_le a b = true) := ⟨py_str_le_trans⟩
  exact List.sorted_insertionSort (fun a b : String => py_str_le a b = true) _

lemma mem_py_sorted_set (l : List String) (x : String) :
    x ∈ py_sorted_set l ↔ x ∈ l := by
  unfold py_sorted_set
  rw [List.mem_insertionSort]
  have := mem_unionSet [] l x
  unfold unionSet at this
  rw [this]
  simp

/-! ### Values stored in the distribution map -/

lemma lookupAssoc_dict_insert {β : Type} (m : List (String × β)) (k0 : String)
    (v0 : β) (k : String) (v : β)
    (h : lookupAssoc (dict_insert m k0 v0) k = some v) :
    v = v0 ∨ lookupAssoc m k = some v := by
  unfold dict_insert at h
  by_cases hp : (lookupAssoc m k0).isSome
  · rw [if_pos hp] at h
    clear hp
    induction m with
    | nil => cases h
    | cons p rest ih =>
      by_cases hk0 : p.1 = k0
      · simp only [List.map_cons, if_pos hk0, lookupAssoc] at h
        by_cases hk : k0 = k
        · rw [if_pos hk] at h
          exact Or.inl (Option.some.inj h).symm
        · rw [if_neg hk] at h
          cases ih h with
          | inl hv => exact Or.inl hv
          | inr hv =>
            right
            have hne : p.1 ≠ k := by rw [hk0]; exact hk
            simp [lookupAssoc, hne, hv]
      · simp only [List.map_cons, if_neg hk0, lookupAssoc] at h
        by_cases hk : p.1 = k
        · rw [if_pos hk] at h
          right
          simp [lookupAssoc, hk, h]
        · rw [if_neg hk] at h
          cases ih h with
          | inl hv => exact Or.inl hv
          | inr hv =>
            right
            simp [lookupAssoc, hk, hv]
  · rw [if_neg hp, lookupAssoc_append] at h
    cases hm : lookupAssoc m k with
    | some w =>
      rw [hm] at h
      exact Or.inr h
    | none =>
      rw [hm] at h
      simp only [lookupAssoc] at h
      by_cases hk : k0 = k
      · rw [if_pos hk] at h
        exact Or.inl (Option.some.inj h).symm
      · rw [if_neg hk] at h
        cases h

lemma build_distribution_map_values (raw_map : List (String × List String))
    (m : String) (cands : List String)
    (h : lookupAssoc (build_distribution_map raw_map) m = some cands) :
    cands ≠ [] ∧ List.Sorted (fun a b : String => py_str_le a b = true) cands ∧
      ∀ c ∈ cands, normalize_dist_name c = c := by
  have main :
      ∀ (raw : List (String × List String)) (acc : List (String × List String)),
        (∀ k v, lookupAssoc acc k = some v →
          v ≠ [] ∧ List.Sorted (fun a b : String => py_str_le a b = true) v ∧
            ∀ c ∈ v, normalize_dist_name c = c) →
        ∀ k v,
          lookupAssoc
            (raw.foldl
              (fun mapping entry =>
                let normalized :=
                  py_sorted_set
                    ((entry.2.filter (fun dep => dep ≠ "")).map normalize_dist_name)
                if normalized ≠ [] then
                  dict_insert mapping (py_lower entry.1) normalized
                else mapping)
              acc)
            k = some v →
          v ≠ [] ∧ List.Sorted (fun a b : String => py_str_le a b = true) v ∧
            ∀ c ∈ v, normalize_dist_name c = c := by
    intro raw
    induction raw with
    | nil => intro acc hacc k v hv; exact hacc k v hv
    | cons entry rest ih =>
      intro acc hacc k v hv
      simp only [List.foldl_cons] at hv
      apply ih _ _ k v hv
      intro k' v' hv'
      by_cases hne :
          py_sorted_set
            ((entry.2.filter (fun dep => dep ≠ "")).map normalize_dist_name) ≠ []
      · simp only [if_pos hne] at hv'
        cases lookupAssoc_dict_insert _ _ _ _ _ hv' with
        | inl heq =>
          subst heq
          refine ⟨hne, py_sorted_set_sorted _, ?_⟩
          intro c hc
          rcases List.mem_map.mp ((mem_py_sorted_set _ c).mp hc) with ⟨y, _, hy⟩
          rw [← hy, normalize_dist_name_idem]
        | inr hmem => exact hacc k' v' hmem
      · simp only [if_neg hne] at hv'
        exact hacc k' v' hv'
  exact main raw_map [] (fun k v hv => by cases hv) m cands h

/-! ### Every value the resolver produces is a normalized name -/

lemma resolve_from_index_normalized (dm : List (String × List String)) (m : String) :
    normalize_dist_name (resolve_from_index dm m) = resolve_from_index dm m := by
  unfold resolve_from_index
  cases h : lookupAssoc dm m with
  | none => simp [normalize_dist_name_idem]
  | some l =>
    cases l with
    | nil => simp [normalize_dist_name_idem]
    | cons c cs => simp [normalize_dist_name_idem]

lemma resolve_module_normalized (dm : List (String × List String))
    (em : List (String × String)) (m : String) :
    normalize_dist_name (resolve_module dm em m) = resolve_module dm em m := by
  unfold resolve_module
  cases h : lookupAssoc em m with
  | none => exact resolve_from_index_normalized dm m
  | some d =>
    by_cases hd : d ≠ ""
    · simp [hd, normalize_dist_name_idem]
    · simp [hd, resolve_from_index_normalized dm m]

lemma infer_dependencies_normalized (imports : List String)
    (dm : List (String × List String)) (loc std : List String)
    (em : List (String × String)) :
    ∀ x ∈ infer_dependencies imports dm loc std em,
      normalize_dist_name x = x := by
  have main : ∀ (l : List String) (acc : List String),
      (∀ x ∈ acc, normalize_dist_name x = x) →
      ∀ x ∈ l.foldl
          (fun inferred module =>
            if module ∈ std ∨ module ∈ loc then inferred
            else insertSet inferred (resolve_module dm em module))
          acc,
        normalize_dist_name x = x := by
    intro l
    induction l with
    | nil => intro acc hacc x hx; exact hacc x hx
    | cons m rest ih =>
      intro acc hacc x hx
      simp only [List.foldl_cons] at hx
      by_cases hm : m ∈ std ∨ m ∈ loc
      · rw [if_pos hm] at hx
        exact ih acc hacc x hx
      · rw [if_neg hm] at hx
        refine ih _ ?_ x hx
        intro y hy
        cases (mem_insertSet acc y (resolve_module dm em m)).mp hy with
        | inl h => exact hacc y h
        | inr h => rw [h]; exact resolve_module_normalized dm em m
  exact main imports [] (fun x hx => by cases hx)

lemma foldl_insertSet_normalized (g : String → String) (l acc : List String)
    (hacc : ∀ x ∈ acc, normalize_dist_name x = x)
    (hg : ∀ d, normalize_dist_name (g d) = g d) :
    ∀ x ∈ l.foldl (fun a d => insertSet a (g d)) acc,
      normalize_dist_name x = x := by
  induction l generalizing acc with
  | nil => intro x hx; exact hacc x hx
  | cons d rest ih =>
    intro x hx
    simp only [List.foldl_cons] at hx
    refine ih _ ?_ x hx
    intro y hy
    cases (mem_insertSet acc y (g d)).mp hy with
    | inl h => exact hacc y h
    | inr h => rw [h]; exact hg d

lemma load_declared_normalized (deps : List TomlItem) :
    ∀ x ∈ (load_declared_dependencies deps).1, normalize_dist_name x = x := by
  intro x hx
  simp only [load_declared_dependencies] at hx
  exact foldl_insertSet_normalized
    (fun dep => normalize_dist_name (parse_requirement_name dep)) _ []
    (fun y hy => by cases hy) (fun d => normalize_dist_name_idem _) x hx

lemma sorted_head_least (c : String) (cs : List String)
    (h : List.Sorted (fun a b : String => py_str_le a b = true) (c :: cs)) :
    ∀ x ∈ c :: cs, py_str_le c x = true := by
  intro x hx
  cases List.mem_cons.mp hx with
  | inl he => rw [he]; exact py_str_le_refl c
  | inr hm => exact List.rel_of_sorted_cons h x hm

/-! ### Claim theorems -/

/-- C3: for every current declaration list and inferred set of (normalized)
distribution names, the synced list enumerates the inferred names in
ascending lexicographic order, emitting the original literal of the first
current declaration whose requirement name normalizes to that name when one
exists, and the bare normalized name otherwise (`synced_per_spec` is the
spec's wording of the Sync Planner; `compute_synced_dependencies` is the
code). -/
theorem synced_matches_spec (current inferred : List String)
    (h : ∀ n ∈ inferred, normalize_dist_name n = n) :
    compute_synced_dependencies current inferred
      = synced_per_spec current inferred := by
  rw [compute_synced_eq]
  unfold synced_per_spec
  apply List.map_congr_left
  intro n hn
  have hnI : n ∈ inferred := (List.mem_insertionSort _).mp hn
  cases hf : current.find?
      (fun dep => normalize_dist_name (parse_requirement_name dep) == n) with
  | some dep => simp
  | none => simp [h n hnI]

/-- C3 witness: the spec's own example, with the version qualifier of
`requests>=2.0` preserved and the output sorted. -/
theorem synced_matches_spec_witness :
    (∀ n ∈ (["requests", "click"] : List String), normalize_dist_name n = n) ∧
    compute_synced_dependencies ["requests>=2.0"] ["requests", "click"]
      = synced_per_spec ["requests>=2.0"] ["requests", "click"] ∧
    compute_synced_dependencies ["requests>=2.0"] ["requests", "click"]
      = ["click", "requests>=2.0"] :=
  ⟨by decide, synced_matches_spec ["requests>=2.0"] ["requests", "click"] (by decide),
   by decide⟩

/-- C2 counterexample: with current list `[]` and inferred set
`{" a", "a"}`, taking the synced output as the new current list and
re-running the sync computation with the same inferred set produces a
different list, so the second run reports `changed = true`.  (The name
`" a"` re-parses to requirement name `"a"`, which collides with the other
entry in the rebuilt first-wins lookup.) -/
theorem sync_idempotent_counterexample :
    compute_synced_dependencies
        (compute_synced_dependencies [] [" a", "a"]) [" a", "a"]
      ≠ compute_synced_dependencies [] [" a", "a"] := by
  decide

/-- C2 amended: sync is idempotent provided every inferred name is a
well-formed requirement token, i.e. re-parsing it as a requirement and
normalizing gives the name back (true of every name `infer_dependencies`
produces in practice, but not of names with leading whitespace). -/
theorem sync_idempotent_amended (current inferred : List String)
    (h : ∀ n ∈ inferred,
      normalize_dist_name (parse_requirement_name n) = n) :
    compute_synced_dependencies
        (compute_synced_dependencies current inferred) inferred
      = compute_synced_dependencies current inferred := by
  have key : ∀ m ∈ List.insertionSort (fun a b => py_str_le a b = true) inferred,
      normalize_dist_name (parse_requirement_name
        ((current.find?
          (fun dep => normalize_dist_name (parse_requirement_name dep) == m)).getD
          m)) = m := by
    intro m hm
    cases hf : current.find?
        (fun dep => normalize_dist_name (parse_requirement_name dep) == m) with
    | some dep =>
      have hp := List.find?_some hf
      simp only [Option.getD_some]
      simpa using hp
    | none =>
      simp only [Option.getD_none]
      exact h m ((List.mem_insertionSort _).mp hm)
  rw [compute_synced_eq current inferred, compute_synced_eq]
  apply List.map_congr_left
  intro n hn
  rw [List.find?_map]
  rw [find?_congr_mem _ _ (fun m => m == n) ?hc]
  case hc =>
    intro m hm
    show (normalize_dist_name (parse_requirement_name
      ((current.find?
        (fun dep => normalize_dist_name (parse_requirement_name dep) == m)).getD
        m)) == n) = (m == n)
    rw [key m hm]
  rw [find?_beq_self_of_mem _ n hn]
  simp

/-- C2 witness: idempotence at a concrete well-formed instance. -/
theorem sync_idempotent_amended_witness :
    (∀ n ∈ (["requests", "click"] : List String),
      normalize_dist_name (parse_requirement_name n) = n) ∧
    compute_synced_dependencies
        (compute_synced_dependencies ["requests>=2.0"] ["requests", "click"])
        ["requests", "click"]
      = compute_synced_dependencies ["requests>=2.0"] ["requests", "click"] :=
  ⟨by decide,
   sync_idempotent_amended ["requests>=2.0"] ["requests", "click"] (by decide)⟩

/-- C1 counterexample: the metadata system reports candidates
`["zzz", "aaa"]` for module `"foo"`; resolution through
`build_distribution_map` yields `"aaa"` — the alphabetically first
normalized candidate — not the source-reported first candidate `"zzz"`. -/
theorem infer_first_candidate_counterexample :
    infer_dependencies ["foo"] (build_distribution_map [("foo", ["zzz", "aaa"])])
        [] [] [] = ["aaa"] ∧
    "zzz" ∉ infer_dependencies ["foo"]
        (build_distribution_map [("foo", ["zzz", "aaa"])]) [] [] [] := by
  decide

/-- C1 amended: `build_distribution_map` stores each module's candidates
deduplicated, normalized and sorted ascending, so for an import with no
stdlib/local exclusion and no explicit override, `infer_dependencies` uses
the first candidate of that sorted list — the lexicographically least
candidate, not the source-reported first one. -/
theorem infer_uses_sorted_first_candidate
    (raw_map : List (String × List String)) (m : String) (cands : List String)
    (loc std : List String) (em : List (String × String))
    (h1 : lookupAssoc (build_distribution_map raw_map) m = some cands)
    (h2 : m ∉ std) (h3 : m ∉ loc) (h4 : lookupAssoc em m = none) :
    infer_dependencies [m] (build_distribution_map raw_map) loc std em
        = [cands.headD ""] ∧
    List.Sorted (fun a b : String => py_str_le a b = true) cands ∧
    ∀ c ∈ cands, py_str_le (cands.headD "") c = true := by
  obtain ⟨hne, hsorted, hnorm⟩ := build_distribution_map_values raw_map m cands h1
  cases cands with
  | nil => exact absurd rfl hne
  | cons c cs =>
    refine ⟨?_, hsorted, ?_⟩
    · unfold infer_dependencies
      simp only [List.foldl_cons, List.foldl_nil]
      rw [if_neg (fun hor => Or.elim hor h2 h3)]
      unfold resolve_module
      rw [h4]
      unfold resolve_from_index
      rw [h1]
      show insertSet [] (normalize_dist_name c) = [(c :: cs).headD ""]
      rw [hnorm c (by simp)]
      rfl
    · exact sorted_head_least c cs hsorted

/-- C1 amended witness: the counterexample index, where the stored entry is
the sorted list `["aaa", "zzz"]` and resolution picks `"aaa"`. -/
theorem infer_uses_sorted_first_candidate_witness :
    lookupAssoc (build_distribution_map [("foo", ["zzz", "aaa"])]) "foo"
        = some ["aaa", "zzz"] ∧
    infer_dependencies ["foo"] (build_distribution_map [("foo", ["zzz", "aaa"])])
        [] [] [] = [(["aaa", "zzz"] : List String).headD ""] :=
  ⟨by decide,
   (infer_uses_sorted_first_candidate [("foo", ["zzz", "aaa"])] "foo"
      ["aaa", "zzz"] [] [] [] (by decide) (by decide) (by decide) (by decide)).1⟩

/-- C4: a module in the stdlib set or the local-module set contributes
nothing to the inferred set, wherever it occurs among the imports, even when
the explicit override map or the distribution index also defines it. -/
theorem stdlib_local_exclusion (xs ys : List String) (m : String)
    (dm : List (String × List String)) (loc std : List String)
    (em : List (String × String)) (h : m ∈ std ∨ m ∈ loc) :
    infer_dependencies (xs ++ m :: ys) dm loc std em
      = infer_dependencies (xs ++ ys) dm loc std em := by
  unfold infer_dependencies
  rw [List.foldl_append, List.foldl_append, List.foldl_cons, if_pos h]

/-- C4 witness: `os` is excluded although both the override map and the
index define it. -/
theorem stdlib_local_exclusion_witness :
    (("os" : String) ∈ (["os"] : List String) ∨ ("os" : String) ∈ ([] : List String)) ∧
    infer_dependencies ["click", "os"] [("os", ["os-dist"])] [] ["os"]
        [("os", "fancy-os")]
      = infer_dependencies ["click"] [("os", ["os-dist"])] [] ["os"]
        [("os", "fancy-os")] :=
  ⟨Or.inl (by decide),
   stdlib_local_exclusion ["click"] [] "os" [("os", ["os-dist"])] [] ["os"]
     [("os", "fancy-os")] (Or.inl (by decide))⟩

/-- C5: a plain import of a dotted path contributes its first dotted segment
lowercased; a `from X import Y` with level 0 and a nonempty module
contributes the first segment of `X` lowercased; a relative import (level
nonzero) contributes nothing, whatever its module. -/
theorem extract_import_forms (nm mod : String) (level : Nat)
    (mo : Option String) (hlvl : level ≠ 0) (hmod : mod ≠ "") :
    extract_imports_from_source (some [PyImportNode.imp [nm]])
        = [py_lower (first_dot_segment nm)] ∧
    extract_imports_from_source (some [PyImportNode.impFrom 0 (some mod)])
        = [py_lower (first_dot_segment mod)] ∧
    extract_imports_from_source (some [PyImportNode.impFrom level mo]) = [] := by
  refine ⟨?_, ?_, ?_⟩
  · simp [extract_imports_from_source, insertSet]
  · simp [extract_imports_from_source, insertSet, hmod]
  · simp [extract_imports_from_source, hlvl]

/-- C5 witness: the three forms at concrete inputs; `Requests.sessions`
contributes `requests`, the relative import contributes nothing. -/
theorem extract_import_forms_witness :
    extract_imports_from_source (some [PyImportNode.imp ["Requests.sessions"]])
        = [py_lower (first_dot_segment "Requests.sessions")] ∧
    extract_imports_from_source (some [PyImportNode.impFrom 1 (some "pkg")]) = [] ∧
    py_lower (first_dot_segment "Requests.sessions") = "requests" :=
  ⟨(extract_import_forms "Requests.sessions" "x" 1 (some "pkg")
      (by decide) (by decide)).1,
   (extract_import_forms "Requests.sessions" "x" 1 (some "pkg")
      (by decide) (by decide)).2.2,
   by decide⟩

/-- Membership in the collected import set is membership in some file's
extracted set. -/
lemma mem_collect_imports (files : List (Option (List PyImportNode)))
    (x : String) :
    x ∈ (collect_imports files).1 ↔
      ∃ f ∈ files, x ∈ extract_imports_from_source f := by
  have aux : ∀ (fs : List (Option (List PyImportNode))) (acc : List String),
      x ∈ fs.foldl
          (fun imports f => unionSet imports (extract_imports_from_source f))
          acc ↔
        x ∈ acc ∨ ∃ f ∈ fs, x ∈ extract_imports_from_source f := by
    intro fs
    induction fs with
    | nil => intro acc; simp
    | cons f0 rest ih =>
      intro acc
      simp only [List.foldl_cons]
      rw [ih, mem_unionSet]
      constructor
      · rintro ((ha | he) | ⟨f, hf, hx⟩)
        · exact Or.inl ha
        · exact Or.inr ⟨f0, by simp, he⟩
        · exact Or.inr ⟨f, by simp [hf], hx⟩
      · rintro (ha | ⟨f, hf, hx⟩)
        · exact Or.inl (Or.inl ha)
        · cases List.mem_cons.mp hf with
          | inl he => subst he; exact Or.inl (Or.inr hx)
          | inr hr => exact Or.inr ⟨f, hr, hx⟩
  exact (aux files []).trans (by simp)

/-- C6: an unparsable source file does not abort the scan: dropping it
leaves the collected import set unchanged (it contributes zero imports), the
file still counts as scanned, and the collected set is exactly the union of
the parseable files' contributions. -/
theorem unparsable_file_tolerated (xs ys : List (Option (List PyImportNode))) :
    (collect_imports (xs ++ none :: ys)).1 = (collect_imports (xs ++ ys)).1 ∧
    (collect_imports (xs ++ none :: ys)).2 = (collect_imports (xs ++ ys)).2 + 1 ∧
    ∀ x, x ∈ (collect_imports (xs ++ none :: ys)).1 ↔
      ∃ tree, some tree ∈ xs ++ none :: ys ∧
        x ∈ extract_imports_from_source (some tree) := by
  refine ⟨?_, ?_, ?_⟩
  · simp only [collect_imports]
    rw [List.foldl_append, List.foldl_append, List.foldl_cons]
    rfl
  · simp [collect_imports]
    omega
  · intro x
    rw [mem_collect_imports]
    constructor
    · rintro ⟨f, hf, hx⟩
      cases f with
      | none => simp [extract_imports_from_source] at hx
      | some tree => exact ⟨tree, hf, hx⟩
    · rintro ⟨tree, ht, hx⟩
      exact ⟨some tree, ht, hx⟩

/-- C6 witness: a scan over a parseable file, an unparsable file and
another parseable file collects the two parseable files' imports and counts
all three files. -/
theorem unparsable_file_tolerated_witness :
    (collect_imports [some [PyImportNode.imp ["requests"]], none,
        some [PyImportNode.imp ["click"]]]).1
      = (collect_imports [some [PyImportNode.imp ["requests"]],
          some [PyImportNode.imp ["click"]]]).1 ∧
    (collect_imports [some [PyImportNode.imp ["requests"]], none,
        some [PyImportNode.imp ["click"]]]).2
      = (collect_imports [some [PyImportNode.imp ["requests"]],
          some [PyImportNode.imp ["click"]]]).2 + 1 :=
  ⟨(unparsable_file_tolerated [some [PyImportNode.imp ["requests"]]]
      [some [PyImportNode.imp ["click"]]]).1,
   (unparsable_file_tolerated [some [PyImportNode.imp ["requests"]]]
      [some [PyImportNode.imp ["click"]]]).2.1⟩

/-- C7: evaluating the sync step at a changing write shows the manifest
effect the code performs: a single direct in-place `write_text` of the
manifest (truncate and write), with no write-to-temporary and no rename —
the write is not all-or-nothing as the spec requires. -/
theorem sync_write_effect_direct :
    (sync_project_dependencies [TomlItem.str "old"] ["newpkg"] true).2
      = [FsEffect.write_in_place ["newpkg"]] := by
  decide

/-- C8: when the synced list equals the current list, the sync step writes
nothing: `changed` and `wrote` are false and the effect trace is empty,
whatever the write flag. -/
theorem no_write_when_unchanged (items : List TomlItem)
    (inferred : List String) (write : Bool)
    (h : compute_synced_dependencies (toml_strings items) inferred
      = toml_strings items) :
    (sync_project_dependencies items inferred write).1.changed = false ∧
    (sync_project_dependencies items inferred write).1.wrote = false ∧
    (sync_project_dependencies items inferred write).2 = [] := by
  unfold sync_project_dependencies
  simp [h]

/-- C8 witness: an already-synced manifest with the write flag set is left
untouched. -/
theorem no_write_when_unchanged_witness :
    compute_synced_dependencies (toml_strings [TomlItem.str "a"]) ["a"]
      = toml_strings [TomlItem.str "a"] ∧
    (sync_project_dependencies [TomlItem.str "a"] ["a"] true).1.wrote = false ∧
    (sync_project_dependencies [TomlItem.str "a"] ["a"] true).2 = [] :=
  ⟨by decide,
   (no_write_when_unchanged [TomlItem.str "a"] ["a"] true (by decide)).2.1,
   (no_write_when_unchanged [TomlItem.str "a"] ["a"] true (by decide)).2.2⟩

/-- C9: every element of the inferred set and of the declared comparable set
is a fixed point of `normalize_dist_name`: both sets contain only
already-normalized distribution names, so their set differences compare
names in normalized form. -/
theorem inferred_declared_sets_normalized (imports : List String)
    (dm : List (String × List String)) (loc std : List String)
    (em : List (String × String)) (deps : List TomlItem) :
    (∀ x ∈ infer_dependencies imports dm loc std em,
      normalize_dist_name x = x) ∧
    (∀ x ∈ (load_declared_dependencies deps).1, normalize_dist_name x = x) :=
  ⟨infer_dependencies_normalized imports dm loc std em,
   load_declared_normalized deps⟩

/-- C9 witness: concrete members of both sets are normalize-fixed. -/
theorem inferred_declared_sets_normalized_witness :
    ("my-pkg" ∈ infer_dependencies ["My_Pkg"] [] [] [] [] ∧
      normalize_dist_name "my-pkg" = "my-pkg") ∧
    ("requests" ∈ (load_declared_dependencies [TomlItem.str "Requests>=2.0"]).1 ∧
      normalize_dist_name "requests" = "requests") :=
  ⟨⟨by decide,
    (inferred_declared_sets_normalized ["My_Pkg"] [] [] [] [] []).1 "my-pkg"
      (by decide)⟩,
   ⟨by decide,
    (inferred_declared_sets_normalized [] [] [] [] []
      [TomlItem.str "Requests>=2.0"]).2 "requests" (by decide)⟩⟩

/-- C10: an explicit-map entry whose value is the empty string is ignored —
removing the entry from the map does not change the inferred set, because
`if mapped_dep:` is false for the empty string and resolution falls through
to the distribution index or the identity fallback. -/
theorem empty_override_ignored (imports : List String)
    (dm : List (String × List String)) (loc std : List String)
    (em : List (String × String)) (m : String)
    (h : lookupAssoc em m = some "") :
    infer_dependencies imports dm loc std em
      = infer_dependencies imports dm loc std
          (em.filter (fun p => p.1 ≠ m)) := by
  have hres : ∀ mo : String, resolve_module dm em mo
      = resolve_module dm (em.filter (fun p => p.1 ≠ m)) mo := by
    intro mo
    unfold resolve_module
    rw [lookupAssoc_filter_ne]
    by_cases he : mo = m
    · subst he
      rw [h, if_pos rfl]
      simp
    · rw [if_neg he]
  unfold infer_dependencies
  have hstep : (fun (inferred : List String) module =>
        if module ∈ std ∨ module ∈ loc then inferred
        else insertSet inferred (resolve_module dm em module))
      = (fun (inferred : List String) module =>
        if module ∈ std ∨ module ∈ loc then inferred
        else insertSet inferred
          (resolve_module dm (em.filter (fun p => p.1 ≠ m)) module)) := by
    funext acc module
    rw [hres]
  rw [hstep]

/-- C10 witness: the override `foo → ""` is skipped and `foo` resolves
through the distribution index to `bar`. -/
theorem empty_override_ignored_witness :
    lookupAssoc [("foo", "")] "foo" = some "" ∧
    infer_dependencies ["foo"] [("foo", ["bar"])] [] [] [("foo", "")]
      = infer_dependencies ["foo"] [("foo", ["bar"])] [] []
          (([("foo", "")] : List (String × String)).filter
            (fun p => p.1 ≠ "foo")) ∧
    infer_dependencies ["foo"] [("foo", ["bar"])] [] [] [("foo", "")]
      = ["bar"] :=
  ⟨by decide,
   empty_override_ignored ["foo"] [("foo", ["bar"])] [] [] [("foo", "")] "foo"
     (by decide),
   by decide⟩
